import Mathlib

/-!
Verification development for the bstream block-streaming library.

The Forkable transducer, its ForkDB and the ForkableHub are modelled from
the specification (their Go sources are not part of the checked tree; only
their test suites are). The Block value type, the ChainList longest-chain
helper and the Firehose glue are translated directly from the Go sources.
-/

/-- A block as consumed by the Forkable: identity, parent id, height and the
height the producer considered irreversible when the block was made. -/
structure FBlock where
  id : String
  prev : String
  num : Nat
  libNum : Nat
deriving DecidableEq, Repr

/-- A block reference: `(id, num)`. -/
structure BlockRef where
  id : String
  num : Nat
deriving DecidableEq, Repr

/-- The five step kinds emitted by the Forkable. -/
inductive StepKind
  | snew
  | sundo
  | sredo
  | sirr
  | sstalled
deriving DecidableEq, Repr

/-- One event delivered to the downstream handler. -/
structure Event where
  step : StepKind
  id : String
  num : Nat
deriving DecidableEq, Repr

/-- Per-node delivery state, needed to tell Redo from New on rejoin. -/
inductive NodeStatus
  | delivered
  | undone
deriving DecidableEq, Repr

/-- Cursor gate: suppress events up to and including `(step, blockId)`. -/
structure Gate where
  step : StepKind
  blockId : String
deriving DecidableEq, Repr

/-- A resumption cursor `(step, block, head_block, lib)`. -/
structure Cursor where
  step : StepKind
  block : BlockRef
  headBlock : BlockRef
  lib : BlockRef
deriving DecidableEq, Repr

/-- Modelled from the spec: state of the Forkable transducer.  The Go
forkable.go is not under the checked sources; fields follow section 3 of the
spec: the ForkDB link table (held as the insertion-ordered block list), the
current LIB and head refs, per-node ever-new marking, the cursor gate and the
step filter mask. -/
structure Forkable where
  db : List FBlock
  lib : BlockRef
  head : BlockRef
  status : List (String × NodeStatus)
  gate : Option Gate
  filterMask : Nat
deriving Repr

/-- Look a block up by id (the ForkDB is id-keyed). -/
def findBlock (db : List FBlock) (i : String) : Option FBlock :=
  db.find? (fun x => x.id = i)

/-- Modelled from the spec: ForkDB.AddLink — insert a block keyed by id;
re-observation of a known id is a no-op. -/
def addLink (db : List FBlock) (b : FBlock) : List FBlock :=
  if (findBlock db b.id).isSome then db else db ++ [b]

/-- Modelled from the spec: the walk along parent pointers from `b` down to
the LIB, requiring heights to strictly increase upward (spec invariant 1 and
the linked-to-LIB notion of section 3).  Returns the ascending chain from
just above the LIB up to `b`, or `none` when `b` is not linked.  `fuel`
bounds the walk; callers pass `b.num + 1`, which always suffices because
heights strictly decrease downward. -/
def chainUp (db : List FBlock) (libId : String) (libNum : Nat) :
    Nat → FBlock → Option (List FBlock)
  | 0, _ => none
  | fuel + 1, b =>
    if b.prev = libId then
      if libNum < b.num then some [b] else none
    else
      match findBlock db b.prev with
      | none => none
      | some p =>
        if p.num < b.num then
          match chainUp db libId libNum fuel p with
          | none => none
          | some rest => some (rest ++ [b])
        else none

/-- Latest recorded status of a node, if any. -/
def getStatus (st : List (String × NodeStatus)) (i : String) : Option NodeStatus :=
  (st.find? (fun x => x.1 = i)).map (fun x => x.2)

/-- Record statuses for a batch of ids (newest entry wins on lookup). -/
def markAll (st : List (String × NodeStatus)) (ids : List String) (s : NodeStatus) :
    List (String × NodeStatus) :=
  ids.foldl (fun acc i => (i, s) :: acc) st

/-- Modelled from the spec: Undo events when switching from the old head
chain to the new one — blocks of the old chain that are not on the new chain,
walking down from the old tip, restricted to blocks previously delivered. -/
def undoEvents (st : List (String × NodeStatus)) (oldChain newChain : List FBlock) :
    List Event :=
  (((oldChain.filter (fun x => !(newChain.map (fun y => y.id)).contains x.id)).reverse).filter
      (fun x => getStatus st x.id = some NodeStatus.delivered)).map
    (fun x => ⟨StepKind.sundo, x.id, x.num⟩)

/-- Modelled from the spec: walking up the new chain, blocks not currently
delivered are emitted — Redo when they had been Undone, New otherwise. -/
def stepEventsUp (st : List (String × NodeStatus)) (chain : List FBlock) : List Event :=
  (chain.filter (fun x => getStatus st x.id ≠ some NodeStatus.delivered)).map
    (fun x =>
      ⟨if getStatus st x.id = some NodeStatus.undone then StepKind.sredo else StepKind.snew,
        x.id, x.num⟩)

/-- Modelled from the spec: LIB advancement (step 8 of the ProcessBlock
algorithm).  When the new block's lib number exceeds the current LIB and the
current chain holds a block at exactly that height, the LIB moves there and
every chain block up to it is emitted Irreversible in ascending order. -/
def libAdvance (lib : BlockRef) (b : FBlock) (chain : List FBlock) :
    BlockRef × List Event :=
  if lib.num < b.libNum then
    match chain.find? (fun x => x.num = b.libNum) with
    | some t =>
      (⟨t.id, t.num⟩,
        (chain.filter (fun x => x.num ≤ b.libNum)).map
          (fun x => ⟨StepKind.sirr, x.id, x.num⟩))
    | none => (lib, [])
  else (lib, [])

/-- Modelled from the spec: Stalled events — blocks whose height the LIB just
crossed and that are not on the final chain. -/
def stalledEvents (db : List FBlock) (oldLibNum newLibNum : Nat)
    (finalIds : List String) : List Event :=
  (db.filter (fun x =>
      decide (oldLibNum < x.num) && decide (x.num ≤ newLibNum) &&
        !finalIds.contains x.id)).map
    (fun x => ⟨StepKind.sstalled, x.id, x.num⟩)

/-- Modelled from the spec: ProcessBlock before gating and filtering.
Records the block, checks whether it becomes the longest-chain tip (strictly
higher than the head and linked to LIB), and if so emits Undos, Redos/News,
the New tip, newly Irreversible blocks and Stalled blocks, in that order.
`processTip` is the tip-switch step shared with its main entry `processRaw`. -/
def processTip (f : Forkable) (db : List FBlock) (b : FBlock) (chain : List FBlock) :
    Forkable × List Event :=
  let oldChain :=
    match findBlock db f.head.id with
    | none => []
    | some hb => (chainUp db f.lib.id f.lib.num (hb.num + 1) hb).getD []
  let uEvs := undoEvents f.status oldChain chain
  let nEvs := stepEventsUp f.status chain
  let st1 := markAll f.status (uEvs.map (fun e => e.id)) NodeStatus.undone
  let st2 := markAll st1 (nEvs.map (fun e => e.id)) NodeStatus.delivered
  let la := libAdvance f.lib b chain
  let sEvs := stalledEvents db f.lib.num la.1.num (la.2.map (fun e => e.id))
  ({ f with db := db, head := ⟨b.id, b.num⟩, lib := la.1, status := st2 },
    uEvs ++ nEvs ++ la.2 ++ sEvs)

def processRaw (f : Forkable) (braw : FBlock) : Forkable × List Event :=
  let db := addLink f.db braw
  let b := (findBlock db braw.id).getD braw
  if b.num ≤ f.lib.num then ({ f with db := db }, [])
  else
    match chainUp db f.lib.id f.lib.num (b.num + 1) b with
    | none => ({ f with db := db }, [])
    | some chain =>
      if b.num ≤ f.head.num then ({ f with db := db }, [])
      else processTip f db b chain

/-- Drop events up to and including the first one matching the gate; `none`
when no event matches. -/
def gateSplit (g : Gate) : List Event → Option (List Event)
  | [] => none
  | e :: rest =>
    if e.step = g.step ∧ e.id = g.blockId then some rest else gateSplit g rest

/-- Apply the cursor gate to a batch of events. -/
def applyGate (gate : Option Gate) (evs : List Event) : Option Gate × List Event :=
  match gate with
  | none => (none, evs)
  | some g =>
    match gateSplit g evs with
    | none => (some g, [])
    | some rest => (none, rest)

/-- Wire bit of each step kind (spec section 6): new=1, undo=2, redo=4,
irreversible=16, stalled=32. -/
def stepBit : StepKind → Nat
  | StepKind.snew => 1
  | StepKind.sundo => 2
  | StepKind.sredo => 4
  | StepKind.sirr => 16
  | StepKind.sstalled => 32

/-- Whether the filter mask lets a step kind through. -/
def maskAllows (mask : Nat) (s : StepKind) : Bool :=
  if mask &&& stepBit s = 0 then false else true

/-- The mask with every step enabled. -/
def stepsAll : Nat := 55

/-- Modelled from the spec: one ProcessBlock call as seen by the downstream
handler — the raw emissions, gated by the cursor gate and restricted to the
configured step mask. -/
def processBlock (f : Forkable) (b : FBlock) : Forkable × List Event :=
  let r := processRaw f b
  let g := applyGate r.1.gate r.2
  ({ r.1 with gate := g.1 }, g.2.filter (fun e => maskAllows r.1.filterMask e.step))

/-- Run a sequence of ProcessBlock calls, concatenating delivered events. -/
def runBlocks (f : Forkable) : List FBlock → Forkable × List Event
  | [] => (f, [])
  | b :: rest =>
    let r := processBlock f b
    let r2 := runBlocks r.1 rest
    (r2.1, r.2 ++ r2.2)

/-- A fresh Forkable: empty DB, head at the LIB, optional gate, step mask. -/
def mkForkable (lib : BlockRef) (gate : Option Gate) (mask : Nat) : Forkable :=
  ⟨[], lib, lib, [], gate, mask⟩

/-- Exclusive-LIB initialisation: the named ref is LIB and is not emitted. -/
def initExclusive (lib : BlockRef) (mask : Nat) : Forkable :=
  mkForkable lib none mask

/-- Modelled from the spec: FromCursor initialisation — the LIB comes from
the cursor and the gate suppresses events at or before the cursor position. -/
def initFromCursor (c : Cursor) (mask : Nat) : Forkable :=
  mkForkable c.lib (some ⟨c.step, c.block.id⟩) mask

/-- The Irreversible events of a delivered event list. -/
def irrOf (evs : List Event) : List Event :=
  evs.filter (fun e => e.step = StepKind.sirr)

/-- The S2 reorg input: 2a, 3a, 3b, 4b, 4a, 5a (ids carry the height in
their hex prefix, as in the test suite). -/
def s2Blocks : List FBlock :=
  [⟨"00000002a", "00000001a", 2, 0⟩,
   ⟨"00000003a", "00000002a", 3, 0⟩,
   ⟨"00000003b", "00000002a", 3, 0⟩,
   ⟨"00000004b", "00000003b", 4, 0⟩,
   ⟨"00000004a", "00000003a", 4, 0⟩,
   ⟨"00000005a", "00000004a", 5, 0⟩]

/-- The ten events the S2 reorg scenario must deliver. -/
def s2Expected : List Event :=
  [⟨StepKind.snew, "00000002a", 2⟩,
   ⟨StepKind.snew, "00000003a", 3⟩,
   ⟨StepKind.sundo, "00000003a", 3⟩,
   ⟨StepKind.snew, "00000003b", 3⟩,
   ⟨StepKind.snew, "00000004b", 4⟩,
   ⟨StepKind.sundo, "00000004b", 4⟩,
   ⟨StepKind.sundo, "00000003b", 3⟩,
   ⟨StepKind.sredo, "00000003a", 3⟩,
   ⟨StepKind.snew, "00000004a", 4⟩,
   ⟨StepKind.snew, "00000005a", 5⟩]

/-- The S3 stalled input: 2a(lib=1), 3a(lib=2), 3b(lib=2), 4a(lib=3). -/
def s3Blocks : List FBlock :=
  [⟨"00000002a", "00000001a", 2, 1⟩,
   ⟨"00000003a", "00000002a", 3, 2⟩,
   ⟨"00000003b", "00000002a", 3, 2⟩,
   ⟨"00000004a", "00000003a", 4, 3⟩]

/-- The six events the S3 stalled scenario must deliver. -/
def s3Expected : List Event :=
  [⟨StepKind.snew, "00000002a", 2⟩,
   ⟨StepKind.snew, "00000003a", 3⟩,
   ⟨StepKind.sirr, "00000002a", 2⟩,
   ⟨StepKind.snew, "00000004a", 4⟩,
   ⟨StepKind.sirr, "00000003a", 3⟩,
   ⟨StepKind.sstalled, "00000003b", 3⟩]

/-- The cursor of the resume scenario: step New, block 4a, head 4a, LIB 2a. -/
def resumeCursor : Cursor :=
  ⟨StepKind.snew, ⟨"00000004a", 4⟩, ⟨"00000004a", 4⟩, ⟨"00000002a", 2⟩⟩

/-- The replayed input of the resume scenario: 2a, 3a, 4a, 5a. -/
def resumeBlocks : List FBlock :=
  [⟨"00000002a", "00000001a", 2, 0⟩,
   ⟨"00000003a", "00000002a", 3, 0⟩,
   ⟨"00000004a", "00000003a", 4, 0⟩,
   ⟨"00000005a", "00000004a", 5, 0⟩]

/-- Translated from the source: forkable ChainList — the root-to-leaf chains of the ForkDB tree. -/
structure ChainList where
  Chains : List (List String)
deriving DecidableEq, Repr

/-- Translated from the source: the scan loop of ChainList.LongestChain, tracking the best index (starting at -1) and best length, replacing them only on a strictly longer chain. -/
def scanLongest : Int → Int → Nat → List (List String) → Int × Nat
  | _, lid, llen, [] => (lid, llen)
  | i, lid, llen, c :: rest =>
    if llen < c.length then scanLongest (i + 1) i c.length rest
    else scanLongest (i + 1) lid llen rest

/-- Translated from the source: ChainList.LongestChain — returns the chain at the scanned index when the list is nonempty; the out-of-range index the Go code would panic on is modelled as `none`. -/
def ChainList.LongestChain (l : ChainList) : Option (List String) :=
  let r := scanLongest 0 (-1) 0 l.Chains
  if 0 < l.Chains.length then
    if r.1 < 0 then none else l.Chains.get? r.1.toNat
  else none

/-- Lexicographic order on char lists, mirroring byte-wise Go string order. -/
def charsLt : List Char → List Char → Bool
  | [], [] => false
  | [], _ :: _ => true
  | _ :: _, [] => false
  | a :: as, b :: bs =>
    if a.toNat < b.toNat then true
    else if b.toNat < a.toNat then false
    else charsLt as bs

/-- Byte-wise string order used by sort.Strings on the ASCII ids involved. -/
def strLe (a b : String) : Bool := !charsLt b.data a.data

/-- Insertion step of the sorted-children helper. -/
def insertString (a : String) : List String → List String
  | [] => [a]
  | b :: l => if strLe a b then a :: b :: l else b :: insertString a l

/-- Sorting as performed by sort.Strings in findChildren and roots. -/
def sortStrings : List String → List String
  | [] => []
  | a :: l => insertString a (sortStrings l)

/-- The ForkDB link table as the tree-builder sees it: id to previous id, kept in insertion (first-seen) order so the first-seen tie-break can be stated. -/
structure GoForkDB where
  links : List (String × String)
deriving DecidableEq, Repr

/-- Translated from the source: ForkDB.findChildren — the ids whose previous id is the parent, sorted. -/
def findChildren (db : GoForkDB) (parentID : String) : List String :=
  sortStrings ((db.links.filter (fun x => x.2 = parentID)).map (fun x => x.1))

/-- Translated from the source: ForkDB.roots — ids whose previous id is not itself a key, sorted. -/
def rootsOf (db : GoForkDB) : List String :=
  sortStrings
    ((db.links.filter (fun x => !(db.links.map (fun y => y.1)).contains x.2)).map
      (fun x => x.1))

/-- Translated from the source: Node.growBranches and Node.chains — all root-to-leaf paths in findChildren order; fuel bounds depth and any value at least the link count suffices on the acyclic DBs the tree is built from. -/
def chainsFrom (db : GoForkDB) : Nat → String → List (List String)
  | 0, i => [[i]]
  | fuel + 1, i =>
    let children := findChildren db i
    if children.isEmpty then [[i]]
    else children.foldr
      (fun c acc => ((chainsFrom db fuel c).map (fun rest => i :: rest)) ++ acc) []

/-- The greatest chain length in a chain list. -/
def maxChainLen (cs : List (List String)) : Nat :=
  cs.foldr (fun c m => max c.length m) 0

/-- The C5 counterexample DB: 2b is seen first, then 2a, then the root link. -/
def cexDB : GoForkDB :=
  ⟨[("00000002b", "00000001a"), ("00000002a", "00000001a"), ("00000001a", "00000000a")]⟩

/-- The chains the tree-builder derives from the counterexample DB. -/
def cexChains : ChainList := ⟨chainsFrom cexDB 3 "00000001a"⟩

/-- Modelled from the spec: the ForkableHub read view — its ForkDB content, current head and LIB. -/
structure HubState where
  db : List FBlock
  head : BlockRef
  lib : BlockRef
deriving Repr

/-- A sub-stream source: the blocks it would replay before following live emissions. -/
structure ReplaySource where
  blocks : List FBlock
deriving DecidableEq, Repr

/-- Modelled from the spec: the hub's current chain from just above LIB to its head. -/
def hubSegment (h : HubState) : List FBlock :=
  match findBlock h.db h.head.id with
  | none => []
  | some hb => (chainUp h.db h.lib.id h.lib.num (hb.num + 1) hb).getD []

/-- Modelled from the spec: ForkableHub.SourceFromFinalBlock — replays from the requested final block to the head, or none when no block of the chain matches the requested number and id. -/
def sourceFromFinalBlock (h : HubState) (ref : BlockRef) : Option ReplaySource :=
  match (hubSegment h).find? (fun b => b.num = ref.num) with
  | none => none
  | some b =>
    if b.id = ref.id then some ⟨(hubSegment h).dropWhile (fun x => x.num < ref.num)⟩
    else none

/-- Modelled from the spec: ForkableHub.SourceFromCursor — none when the cursor head is ahead of the hub head, otherwise the replay from just after the cursor block. -/
def sourceFromCursor (h : HubState) (c : Cursor) : Option ReplaySource :=
  if h.head.num < c.headBlock.num then none
  else some ⟨(hubSegment h).dropWhile (fun x => x.num ≤ c.block.num)⟩

/-- A block as the Firehose stop-block wrapper sees it. -/
structure FhBlock where
  id : String
  number : Nat
deriving DecidableEq, Repr

/-- Outcome of the inner downstream handler. -/
inductive HandlerOutcome
  | ok
  | fail (code : Nat)
deriving DecidableEq, Repr

/-- Outcome of the wrapped handler: success, the stop-block sentinel (a normal terminal condition, not an error), or the inner handler's error. -/
inductive WrappedOutcome
  | ok
  | stopBlockReached
  | innerErr (code : Nat)
deriving DecidableEq, Repr

/-- Translated from the source: Firehose.wrappedHandler — above the stop block return the sentinel without forwarding; at the stop block forward first, then return the sentinel; below it forward and pass the outcome through. The list records the blocks forwarded to the inner handler. -/
def wrappedHandler (stopBlockNum : Nat) (inner : FhBlock → HandlerOutcome) (b : FhBlock) :
    List FhBlock × WrappedOutcome :=
  if 0 < stopBlockNum then
    if stopBlockNum < b.number then ([], WrappedOutcome.stopBlockReached)
    else
      match inner b with
      | HandlerOutcome.fail c => ([b], WrappedOutcome.innerErr c)
      | HandlerOutcome.ok =>
        if b.number = stopBlockNum then ([b], WrappedOutcome.stopBlockReached)
        else ([b], WrappedOutcome.ok)
  else
    match inner b with
    | HandlerOutcome.fail c => ([b], WrappedOutcome.innerErr c)
    | HandlerOutcome.ok => ([b], WrappedOutcome.ok)

/-- Outcome of the tracker's GetRelativeBlock on the HEAD target: the getter is undefined (no HEAD tracker), it failed, or it resolved a height. -/
inductive TrackerHeadOutcome
  | getterUndefined
  | failed
  | resolved (n : Nat)
deriving DecidableEq, Repr

/-- Result of Firehose.createSource: a source (tagged with its construction path), the invalid-argument error, or another error. -/
inductive FirehoseResult
  | source (startBlock : Nat) (kind : Nat)
  | errInvalidArg
  | errOther
deriving DecidableEq, Repr

/-- The inputs of Firehose.createSource that decide its control flow. -/
structure FirehoseConfig where
  startBlockNum : Int
  stopBlockNum : Nat
  firstStreamableBlock : Nat
  headTracker : TrackerHeadOutcome
  hasCursor : Bool
  usesIrrIndex : Bool
  hasTracker : Bool
  resolveStartOutcome : Option Nat
deriving DecidableEq, Repr

/-- Translated from the source: resolveNegativeStartBlockNum — a negative start consults the HEAD getter, mapping an undefined getter to the invalid-argument error; a non-negative start passes through. -/
def resolveNegativeStartBlockNum (start : Int) (tr : TrackerHeadOutcome) :
    Except FirehoseResult Nat :=
  if start < 0 then
    match tr with
    | TrackerHeadOutcome.getterUndefined => Except.error FirehoseResult.errInvalidArg
    | TrackerHeadOutcome.failed => Except.error FirehoseResult.errOther
    | TrackerHeadOutcome.resolved n => Except.ok n
  else Except.ok start.toNat

/-- Translated from the source: the control flow of Firehose.createSource — resolve the start block, clamp to the first streamable block, reject a start past a non-zero stop block, then build a source along the indexed, cursor, tracker or plain path. -/
def createSource (f : FirehoseConfig) : FirehoseResult :=
  match resolveNegativeStartBlockNum f.startBlockNum f.headTracker with
  | Except.error e => e
  | Except.ok abs0 =>
    let abs := if abs0 < f.firstStreamableBlock then f.firstStreamableBlock else abs0
    if 0 < f.stopBlockNum ∧ f.stopBlockNum < abs then FirehoseResult.errInvalidArg
    else if f.usesIrrIndex then FirehoseResult.source abs 0
    else if f.hasCursor then FirehoseResult.source abs 1
    else if f.hasTracker then
      match f.resolveStartOutcome with
      | none => FirehoseResult.errOther
      | some n => FirehoseResult.source n 2
    else FirehoseResult.source abs 3

/-- The numeric wire encoding of each step kind. -/
def stepWireCode : StepKind → Nat
  | StepKind.snew => 1
  | StepKind.sundo => 2
  | StepKind.sredo => 4
  | StepKind.sirr => 16
  | StepKind.sstalled => 32

/-- Modelled from the spec: the cursor text codec — the c1 form when the head equals the block, the extended c3 form carrying the head otherwise. -/
def cursorToText (c : Cursor) : String :=
  if c.headBlock = c.block then
    "c1:" ++ toString (stepWireCode c.step) ++ ":" ++ toString c.block.num ++ ":"
      ++ c.block.id ++ ":" ++ toString c.lib.num ++ ":" ++ c.lib.id
  else
    "c3:" ++ toString (stepWireCode c.step) ++ ":" ++ toString c.block.num ++ ":"
      ++ c.block.id ++ ":" ++ toString c.headBlock.num ++ ":" ++ c.headBlock.id
      ++ ":" ++ toString c.lib.num ++ ":" ++ c.lib.id

/-- The bstream Block fields PreviousRef reads. -/
structure BsBlock where
  id : String
  number : Nat
  previousId : String
  libNum : Nat
deriving DecidableEq, Repr

/-- Translated from the source: BlockRefEmpty. -/
def blockRefEmpty : BlockRef := ⟨"", 0⟩

/-- Translated from the source: Block.PreviousRef, with the nil receiver as none. -/
def blockPreviousRef : Option BsBlock → BlockRef
  | none => blockRefEmpty
  | some b =>
    if b.number = 0 ∨ b.previousId = "" then blockRefEmpty
    else ⟨b.previousId, b.number - 1⟩

/-- Follows the claim's words, for comparison with the translated function: total, BlockRefEmpty when the receiver is nil, the Number is 0 or the PreviousId is empty; otherwise the reference (PreviousId, Number - 1). -/
def previousRefClaim : Option BsBlock → BlockRef
  | none => blockRefEmpty
  | some b =>
    if b.number = 0 then blockRefEmpty
    else if b.previousId = "" then blockRefEmpty
    else ⟨b.previousId, b.number - 1⟩

/-- C1: a Forkable initialised with LIB 1a and every step enabled, fed the
blocks 2a, 3a, 3b, 4b, 4a, 5a in that order, delivers exactly the ten events
New(2a), New(3a), Undo(3a), New(3b), New(4b), Undo(4b), Undo(3b), Redo(3a),
New(4a), New(5a), in that order: nothing is emitted when 3b or 4a arrive off
the longest chain, undos walk down from the old tip, the previously-New 3a
rejoins as Redo and never-New blocks rejoin as New. -/
theorem forkable_s2_reorg_trace :
    (runBlocks (initExclusive ⟨"00000001a", 1⟩ stepsAll) s2Blocks).2 = s2Expected := by
  decide

/-- C4: processing 2a, 3a(lib=2), 3b(lib=2), 4a(lib=3) from initial LIB 1a
delivers exactly New(2a), New(3a), Irr(2a), New(4a), Irr(3a), Stalled(3b) in
that order: the fork block 3b is delivered as Stalled exactly once, after the
Irreversible event for the same-height block of the final chain. -/
theorem forkable_s3_stalled_trace :
    (runBlocks (initExclusive ⟨"00000001a", 1⟩ stepsAll) s3Blocks).2 = s3Expected := by
  decide

/-- C3: a Forkable configured from the cursor (step=New, block=4a, head=4a,
lib=2a) suppresses every event at or before the cursor position on the
cursor's chain: reprocessing 2a, 3a, 4a, 5a delivers only New(5a) — no
duplicate New for 2a, 3a or 4a. -/
theorem forkable_cursor_resume_trace :
    (runBlocks (initFromCursor resumeCursor stepsAll) resumeBlocks).2 =
      [⟨StepKind.snew, "00000005a", 5⟩] := by
  decide

theorem irrOf_append (l1 l2 : List Event) : irrOf (l1 ++ l2) = irrOf l1 ++ irrOf l2 := by
  simp [irrOf, List.filter_append]

theorem irrOf_undoEvents (st : List (String × NodeStatus)) (o n : List FBlock) :
    irrOf (undoEvents st o n) = [] := by
  simp only [irrOf, undoEvents]
  induction ((o.filter (fun x => !(n.map (fun y => y.id)).contains x.id)).reverse).filter
      (fun x => getStatus st x.id = some NodeStatus.delivered) with
  | nil => simp
  | cons a l ih => simp [ih]

theorem irrOf_stepEventsUp (st : List (String × NodeStatus)) (c : List FBlock) :
    irrOf (stepEventsUp st c) = [] := by
  simp only [irrOf, stepEventsUp]
  induction c.filter (fun x => getStatus st x.id ≠ some NodeStatus.delivered) with
  | nil => simp
  | cons a l ih =>
    simp only [List.map_cons, List.filter_cons, ih]
    split <;> simp_all

theorem irrOf_stalledEvents (db : List FBlock) (a b : Nat) (ids : List String) :
    irrOf (stalledEvents db a b ids) = [] := by
  simp only [irrOf, stalledEvents]
  induction db.filter (fun x =>
      decide (a < x.num) && decide (x.num ≤ b) && !ids.contains x.id) with
  | nil => simp
  | cons p l ih => simp [ih]

theorem irrOf_libAdvance (lib : BlockRef) (b : FBlock) (chain : List FBlock) :
    irrOf (libAdvance lib b chain).2 = (libAdvance lib b chain).2 := by
  unfold libAdvance
  split
  · cases hf : chain.find? (fun x => decide (x.num = b.libNum)) with
    | none => simp [irrOf]
    | some t =>
      simp only [irrOf]
      induction chain.filter (fun x => decide (x.num ≤ b.libNum)) with
      | nil => simp
      | cons p l ih => simp [ih]
  · simp [irrOf]

theorem libAdvance_spec (lib : BlockRef) (b : FBlock) (chain : List FBlock)
    (hpw : List.Pairwise (fun x y : FBlock => x.num < y.num) chain)
    (hlb : ∀ x ∈ chain, lib.num < x.num) :
    lib.num ≤ (libAdvance lib b chain).1.num
    ∧ List.Pairwise (fun e e' : Event => e.num < e'.num) (libAdvance lib b chain).2
    ∧ ∀ e ∈ (libAdvance lib b chain).2,
        lib.num < e.num ∧ e.num ≤ (libAdvance lib b chain).1.num
        ∧ ∃ x ∈ chain, x.id = e.id ∧ x.num = e.num := by
  unfold libAdvance
  split
  case isTrue hlt =>
    cases hf : chain.find? (fun x => decide (x.num = b.libNum)) with
    | none => simp
    | some t =>
      have ht : t.num = b.libNum := by
        have := List.find?_some hf
        simpa using this
      simp only
      refine ⟨by omega, ?_, ?_⟩
      · rw [List.pairwise_map]
        exact (hpw.filter _).imp (fun h => h)
      · intro e he
        rw [List.mem_map] at he
        obtain ⟨x, hx, rfl⟩ := he
        rw [List.mem_filter] at hx
        obtain ⟨hxc, hxle⟩ := hx
        have hxle' : x.num ≤ b.libNum := by simpa using hxle
        exact ⟨hlb x hxc, by simpa [ht] using hxle', x, hxc, rfl, rfl⟩
  case isFalse h => simp

theorem chainUp_spec (db : List FBlock) (libId : String) (libNum : Nat) :
    ∀ (fuel : Nat) (b : FBlock) (c : List FBlock),
      chainUp db libId libNum fuel b = some c →
      List.Pairwise (fun x y : FBlock => x.num < y.num) c
      ∧ (∀ x ∈ c, libNum < x.num)
      ∧ (∀ x ∈ c, x.num ≤ b.num)
      ∧ (b ∈ db → ∀ x ∈ c, x ∈ db)
      ∧ b ∈ c := by
  intro fuel
  induction fuel with
  | zero => intro b c h; simp [chainUp] at h
  | succ n ih =>
    intro b c h
    rw [chainUp] at h
    by_cases hp : b.prev = libId
    · rw [if_pos hp] at h
      by_cases hl : libNum < b.num
      · rw [if_pos hl] at h
        obtain rfl : [b] = c := Option.some.inj h
        refine ⟨by simp, by simpa using hl, by simp, by simp +contextual, by simp⟩
      · rw [if_neg hl] at h; exact absurd h (by simp)
    · rw [if_neg hp] at h
      cases hfb : findBlock db b.prev with
      | none => rw [hfb] at h; exact absurd h (by simp)
      | some p =>
        rw [hfb] at h
        dsimp only at h
        by_cases hlt : p.num < b.num
        · rw [if_pos hlt] at h
          cases hrec : chainUp db libId libNum n p with
          | none => rw [hrec] at h; dsimp only at h; exact absurd h (by simp)
          | some rest =>
            rw [hrec] at h
            dsimp only at h
            obtain rfl : rest ++ [b] = c := Option.some.inj h
            obtain ⟨ih1, ih2, ih3, ih4, ih5⟩ := ih p rest hrec
            have hpmem : p ∈ db := by
              have := List.mem_of_find?_eq_some hfb
              exact this
            refine ⟨?_, ?_, ?_, ?_, ?_⟩
            · refine List.pairwise_append.mpr ⟨ih1, by simp, ?_⟩
              intro x hx y hy
              obtain rfl : y = b := by simpa using hy
              exact lt_of_le_of_lt (ih3 x hx) hlt
            · intro x hx
              rcases List.mem_append.mp hx with hx1 | hx1
              · exact ih2 x hx1
              · obtain rfl : x = b := by simpa using hx1
                exact lt_trans (ih2 p ih5) hlt
            · intro x hx
              rcases List.mem_append.mp hx with hx1 | hx1
              · exact le_of_lt (lt_of_le_of_lt (ih3 x hx1) hlt)
              · obtain rfl : x = b := by simpa using hx1
                exact le_refl _
            · intro hb x hx
              rcases List.mem_append.mp hx with hx1 | hx1
              · exact ih4 hpmem x hx1
              · obtain rfl : x = b := by simpa using hx1
                exact hb
            · simp
        · rw [if_neg hlt] at h; exact absurd h (by simp)

theorem addLink_mem (db : List FBlock) (b x : FBlock) (hx : x ∈ db) : x ∈ addLink db b := by
  unfold addLink
  split
  · exact hx
  · exact List.mem_append_left _ hx

theorem findBlock_mem (db : List FBlock) (i : String) (x : FBlock)
    (h : findBlock db i = some x) : x ∈ db :=
  List.mem_of_find?_eq_some h

theorem addLink_nodup (db : List FBlock) (b : FBlock)
    (h : (db.map (fun x => x.id)).Nodup) : ((addLink db b).map (fun x => x.id)).Nodup := by
  unfold addLink
  split
  case isTrue => exact h
  case isFalse hns =>
    have hnone : findBlock db b.id = none := by
      cases hv : findBlock db b.id with
      | none => rfl
      | some x => rw [hv] at hns; simp at hns
    have hnotin : ∀ x ∈ db, x.id ≠ b.id := by
      intro x hx hc
      rw [findBlock] at hnone
      have h0 := List.find?_eq_none.mp hnone x hx
      simp [hc] at h0
    simp only [List.map_append, List.map_cons, List.map_nil]
    rw [List.nodup_append]
    refine ⟨h, by simp, ?_⟩
    intro a ha
    simp only [List.mem_map] at ha
    obtain ⟨x, hx, rfl⟩ := ha
    simp only [List.mem_cons, List.not_mem_nil, or_false]
    exact fun hc => hnotin x hx hc

theorem find?_append_of_none {p : FBlock → Bool} (l1 l2 : List FBlock)
    (h : l1.find? p = none) : (l1 ++ l2).find? p = l2.find? p := by
  induction l1 with
  | nil => simp
  | cons a l ih =>
    cases hpa : p a with
    | true => rw [List.find?_cons_of_pos _ hpa] at h; exact absurd h (by simp)
    | false =>
      rw [List.find?_cons_of_neg _ (by simp [hpa])] at h
      rw [List.cons_append, List.find?_cons_of_neg _ (by simp [hpa])]
      exact ih h

theorem normalized_mem (db : List FBlock) (b : FBlock) :
    (findBlock (addLink db b) b.id).getD b ∈ addLink db b := by
  unfold addLink
  cases hv : findBlock db b.id with
  | some y =>
    rw [if_pos (by simp [hv])]
    rw [hv]
    simpa using findBlock_mem _ _ _ hv
  | none =>
    rw [if_neg (by simp [hv])]
    have hfb : findBlock (db ++ [b]) b.id = some b := by
      rw [findBlock] at hv ⊢
      rw [find?_append_of_none db [b] hv]
      simp
    rw [hfb]
    simp

theorem gateSplit_sublist (g : Gate) :
    ∀ (evs rest : List Event), gateSplit g evs = some rest → List.Sublist rest evs := by
  intro evs
  induction evs with
  | nil => intro rest h; simp [gateSplit] at h
  | cons e l ih =>
    intro rest h
    rw [gateSplit] at h
    by_cases hc : e.step = g.step ∧ e.id = g.blockId
    · rw [if_pos hc] at h
      have he : l = rest := Option.some.inj h
      subst he
      exact List.sublist_cons_self e l
    · rw [if_neg hc] at h
      exact List.Sublist.trans (ih rest h) (List.sublist_cons_self e l)

theorem applyGate_sublist (gate : Option Gate) (evs : List Event) :
    List.Sublist (applyGate gate evs).2 evs := by
  unfold applyGate
  cases gate with
  | none => exact List.Sublist.refl evs
  | some g =>
    cases hs : gateSplit g evs with
    | none => simp only [hs]; simp
    | some r2 => simp only [hs]; exact gateSplit_sublist g evs r2 hs

theorem processBlock_sub (f : Forkable) (b : FBlock) :
    (processBlock f b).1.lib = (processRaw f b).1.lib
    ∧ (processBlock f b).1.db = (processRaw f b).1.db
    ∧ List.Sublist (processBlock f b).2 (processRaw f b).2 := by
  unfold processBlock
  refine ⟨rfl, rfl, ?_⟩
  exact List.Sublist.trans (List.filter_sublist _) (applyGate_sublist _ _)

theorem processTip_spec (f : Forkable) (db : List FBlock) (b : FBlock) (chain : List FBlock)
    (hpw : List.Pairwise (fun x y : FBlock => x.num < y.num) chain)
    (hlb : ∀ x ∈ chain, f.lib.num < x.num)
    (hmem : ∀ x ∈ chain, x ∈ db) :
    f.lib.num ≤ (processTip f db b chain).1.lib.num
    ∧ (processTip f db b chain).1.db = db
    ∧ List.Pairwise (fun e e' : Event => e.num < e'.num) (irrOf (processTip f db b chain).2)
    ∧ ∀ e ∈ irrOf (processTip f db b chain).2,
        f.lib.num < e.num ∧ e.num ≤ (processTip f db b chain).1.lib.num
        ∧ ∃ x ∈ db, x.id = e.id ∧ x.num = e.num := by
  have hla := libAdvance_spec f.lib b chain hpw hlb
  have hirr : irrOf (processTip f db b chain).2 = (libAdvance f.lib b chain).2 := by
    dsimp only [processTip]
    rw [irrOf_append, irrOf_append, irrOf_append, irrOf_undoEvents, irrOf_stepEventsUp,
      irrOf_stalledEvents, irrOf_libAdvance]
    simp
  have hlib : (processTip f db b chain).1.lib = (libAdvance f.lib b chain).1 := rfl
  have hdb : (processTip f db b chain).1.db = db := rfl
  rw [hirr, hlib, hdb]
  refine ⟨hla.1, rfl, hla.2.1, ?_⟩
  intro e he
  obtain ⟨h1, h2, x, hx, hxid, hxnum⟩ := hla.2.2 e he
  exact ⟨h1, h2, x, hmem x hx, hxid, hxnum⟩

theorem processRaw_cases (f : Forkable) (braw : FBlock) :
    processRaw f braw = ({ f with db := addLink f.db braw }, [])
    ∨ ∃ chain,
        chainUp (addLink f.db braw) f.lib.id f.lib.num
            (((findBlock (addLink f.db braw) braw.id).getD braw).num + 1)
            ((findBlock (addLink f.db braw) braw.id).getD braw) = some chain
        ∧ processRaw f braw =
            processTip f (addLink f.db braw) ((findBlock (addLink f.db braw) braw.id).getD braw)
              chain := by
  simp only [processRaw]
  by_cases h1 : ((findBlock (addLink f.db braw) braw.id).getD braw).num ≤ f.lib.num
  · rw [if_pos h1]; left; rfl
  · rw [if_neg h1]
    cases hch : chainUp (addLink f.db braw) f.lib.id f.lib.num
        (((findBlock (addLink f.db braw) braw.id).getD braw).num + 1)
        ((findBlock (addLink f.db braw) braw.id).getD braw) with
    | none => simp only [hch]; left; trivial
    | some chain =>
      simp only [hch]
      by_cases h2 : ((findBlock (addLink f.db braw) braw.id).getD braw).num ≤ f.head.num
      · rw [if_pos h2]; left; rfl
      · rw [if_neg h2]; right; exact ⟨chain, rfl, rfl⟩

theorem processRaw_spec (f : Forkable) (braw : FBlock) :
    f.lib.num ≤ (processRaw f braw).1.lib.num
    ∧ List.Pairwise (fun e e' : Event => e.num < e'.num) (irrOf (processRaw f braw).2)
    ∧ (∀ e ∈ irrOf (processRaw f braw).2,
        f.lib.num < e.num ∧ e.num ≤ (processRaw f braw).1.lib.num
        ∧ ∃ x ∈ (processRaw f braw).1.db, x.id = e.id ∧ x.num = e.num)
    ∧ (∀ x ∈ f.db, x ∈ (processRaw f braw).1.db)
    ∧ ((f.db.map (fun x => x.id)).Nodup → ((processRaw f braw).1.db.map (fun x => x.id)).Nodup) := by
  rcases processRaw_cases f braw with heq | ⟨chain, hch, heq⟩
  · rw [heq]
    refine ⟨le_refl _, by simp [irrOf], by simp [irrOf], ?_, ?_⟩
    · intro x hx; exact addLink_mem f.db braw x hx
    · intro h; exact addLink_nodup f.db braw h
  · obtain ⟨cpw, clb, cle, cdbm, cbm⟩ :=
      chainUp_spec (addLink f.db braw) f.lib.id f.lib.num _ _ chain hch
    have hmem : ∀ x ∈ chain, x ∈ addLink f.db braw := cdbm (normalized_mem f.db braw)
    obtain ⟨t1, t2, t3, t4⟩ :=
      processTip_spec f (addLink f.db braw) ((findBlock (addLink f.db braw) braw.id).getD braw)
        chain cpw clb hmem
    rw [heq]
    refine ⟨t1, t3, ?_, ?_, ?_⟩
    · intro e he
      obtain ⟨h1, h2, x, hx, hxid, hxnum⟩ := t4 e he
      exact ⟨h1, h2, x, by rw [t2]; exact hx, hxid, hxnum⟩
    · intro x hx
      rw [t2]
      exact addLink_mem f.db braw x hx
    · intro h
      rw [t2]
      exact addLink_nodup f.db braw h

theorem processBlock_spec (f : Forkable) (b : FBlock) :
    f.lib.num ≤ (processBlock f b).1.lib.num
    ∧ List.Pairwise (fun e e' : Event => e.num < e'.num) (irrOf (processBlock f b).2)
    ∧ (∀ e ∈ irrOf (processBlock f b).2,
        f.lib.num < e.num ∧ e.num ≤ (processBlock f b).1.lib.num
        ∧ ∃ x ∈ (processBlock f b).1.db, x.id = e.id ∧ x.num = e.num)
    ∧ (∀ x ∈ f.db, x ∈ (processBlock f b).1.db)
    ∧ ((f.db.map (fun x => x.id)).Nodup → ((processBlock f b).1.db.map (fun x => x.id)).Nodup) := by
  obtain ⟨hl, hdb, hsub⟩ := processBlock_sub f b
  obtain ⟨r1, r2, r3, r4, r5⟩ := processRaw_spec f b
  have hsubirr : List.Sublist (irrOf (processBlock f b).2) (irrOf (processRaw f b).2) :=
    List.Sublist.filter _ hsub
  refine ⟨by rw [hl]; exact r1, r2.sublist hsubirr, ?_, ?_, ?_⟩
  · intro e he
    obtain ⟨h1, h2, x, hx, hxi, hxn⟩ := r3 e (hsubirr.subset he)
    exact ⟨h1, by rw [hl]; exact h2, x, by rw [hdb]; exact hx, hxi, hxn⟩
  · intro x hx; rw [hdb]; exact r4 x hx
  · intro h; rw [hdb]; exact r5 h

theorem runBlocks_spec (bs : List FBlock) : ∀ (f : Forkable),
    f.lib.num ≤ (runBlocks f bs).1.lib.num
    ∧ List.Pairwise (fun e e' : Event => e.num < e'.num) (irrOf (runBlocks f bs).2)
    ∧ (∀ e ∈ irrOf (runBlocks f bs).2,
        f.lib.num < e.num ∧ e.num ≤ (runBlocks f bs).1.lib.num
        ∧ ∃ x ∈ (runBlocks f bs).1.db, x.id = e.id ∧ x.num = e.num)
    ∧ (∀ x ∈ f.db, x ∈ (runBlocks f bs).1.db)
    ∧ ((f.db.map (fun x => x.id)).Nodup → ((runBlocks f bs).1.db.map (fun x => x.id)).Nodup) := by
  induction bs with
  | nil =>
    intro f
    refine ⟨le_refl _, by simp [runBlocks, irrOf], by simp [runBlocks, irrOf], ?_, ?_⟩
    · intro x hx; simpa [runBlocks] using hx
    · intro h; simpa [runBlocks] using h
  | cons b rest ih =>
    intro f
    obtain ⟨p1, p2, p3, p4, p5⟩ := processBlock_spec f b
    obtain ⟨q1, q2, q3, q4, q5⟩ := ih (processBlock f b).1
    have hr : runBlocks f (b :: rest) =
        ((runBlocks (processBlock f b).1 rest).1,
          (processBlock f b).2 ++ (runBlocks (processBlock f b).1 rest).2) := rfl
    rw [hr]
    refine ⟨le_trans p1 q1, ?_, ?_, ?_, ?_⟩
    · rw [irrOf_append]
      refine List.pairwise_append.mpr ⟨p2, q2, ?_⟩
      intro e1 h1 e2 h2
      exact lt_of_le_of_lt (p3 e1 h1).2.1 (q3 e2 h2).1
    · rw [irrOf_append]
      intro e he
      rcases List.mem_append.mp he with h1 | h2
      · obtain ⟨a1, a2, x, hx, hxi, hxn⟩ := p3 e h1
        exact ⟨a1, le_trans a2 q1, x, q4 x hx, hxi, hxn⟩
      · obtain ⟨a1, a2, x, hx, hxi, hxn⟩ := q3 e h2
        exact ⟨lt_of_le_of_lt p1 a1, a2, x, hx, hxi, hxn⟩
    · intro x hx
      exact q4 x (p4 x hx)
    · intro h
      exact q5 (p5 h)

/-- C2: across any sequence of ProcessBlock calls on a single Forkable, the
Irreversible events delivered to the downstream handler are strictly ascending
in block number, and no block is ever delivered as Irreversible more than
once (two Irreversible events never share a block id). -/
theorem forkable_irreversible_ascending_unique (lib0 : BlockRef) (gate : Option Gate)
    (mask : Nat) (bs : List FBlock) :
    List.Pairwise (fun e e' : Event => e.num < e'.num)
      (irrOf (runBlocks (mkForkable lib0 gate mask) bs).2)
    ∧ List.Pairwise (fun e e' : Event => e.id ≠ e'.id)
      (irrOf (runBlocks (mkForkable lib0 gate mask) bs).2) := by
  obtain ⟨_, h2, h3, _, h5⟩ := runBlocks_spec bs (mkForkable lib0 gate mask)
  have hnd := h5 (by simp [mkForkable])
  refine ⟨h2, ?_⟩
  refine List.Pairwise.imp_of_mem ?_ h2
  intro e e' he he' hlt heq
  obtain ⟨_, _, x, hx, hxi, hxn⟩ := h3 e he
  obtain ⟨_, _, y, hy, hyi, hyn⟩ := h3 e' he'
  have hxy : x = y := List.inj_on_of_nodup_map hnd hx hy (by rw [hxi, hyi, heq])
  have hnum : e.num = e'.num := by rw [← hxn, hxy, hyn]
  rw [hnum] at hlt
  exact lt_irrefl _ hlt

/-- C5 counterexample: in a ForkDB whose links were inserted with block 2b
seen before block 2a (both children of the single root 1a, chains tied at
maximal length 2), LongestChain returns the chain ending in 2a — the
lexicographically first tip — not the chain ending in the first-seen tip 2b.
So the first-seen (FIFO) tie-break stated by the claim does not hold. -/
theorem longestChain_not_first_seen :
    rootsOf cexDB = ["00000001a"]
    ∧ cexChains.Chains = [["00000001a", "00000002a"], ["00000001a", "00000002b"]]
    ∧ cexChains.LongestChain = some ["00000001a", "00000002a"]
    ∧ (cexDB.links.map (fun x => x.1)).indexOf "00000002b"
        < (cexDB.links.map (fun x => x.1)).indexOf "00000002a"
    ∧ cexChains.LongestChain ≠ some ["00000001a", "00000002b"] := by
  decide

theorem le_maxChainLen : ∀ (cs : List (List String)), ∀ c ∈ cs, c.length ≤ maxChainLen cs := by
  intro cs
  induction cs with
  | nil => simp
  | cons a l ih =>
    intro c hc
    rcases List.mem_cons.mp hc with rfl | hm
    · exact Nat.le_max_left _ _
    · exact le_trans (ih c hm) (Nat.le_max_right _ _)

theorem scanLongest_spec :
    ∀ (cs : List (List String)) (i lid : Int) (llen : Nat),
      (maxChainLen cs ≤ llen → scanLongest i lid llen cs = (lid, llen))
      ∧ (llen < maxChainLen cs →
          ∃ k ck, cs.get? k = some ck
            ∧ scanLongest i lid llen cs = (i + (k : Int), ck.length)
            ∧ ck.length = maxChainLen cs
            ∧ ∀ j cj, j < k → cs.get? j = some cj → cj.length < maxChainLen cs) := by
  intro cs
  induction cs with
  | nil =>
    intro i lid llen
    refine ⟨fun _ => rfl, fun h => absurd h (by simp [maxChainLen])⟩
  | cons c rest ih =>
    intro i lid llen
    have hmax : maxChainLen (c :: rest) = max c.length (maxChainLen rest) := rfl
    constructor
    · intro hle
      rw [hmax] at hle
      have h1 : c.length ≤ llen := le_trans (Nat.le_max_left _ _) hle
      have h2 : maxChainLen rest ≤ llen := le_trans (Nat.le_max_right _ _) hle
      rw [scanLongest, if_neg (by omega)]
      exact (ih (i + 1) lid llen).1 h2
    · intro hlt
      rw [hmax] at hlt
      by_cases hc : llen < c.length
      · rw [scanLongest, if_pos hc]
        by_cases hrest : maxChainLen rest ≤ c.length
        · have hm : max c.length (maxChainLen rest) = c.length := Nat.max_eq_left hrest
          refine ⟨0, c, rfl, ?_, ?_, ?_⟩
          · rw [(ih (i + 1) i c.length).1 hrest]
            simp
          · rw [hmax, hm]
          · intro j cj hj
            omega
        · push_neg at hrest
          obtain ⟨k, ck, hget, hscan, hlen, hpre⟩ := (ih (i + 1) i c.length).2 hrest
          have hm : max c.length (maxChainLen rest) = maxChainLen rest :=
            Nat.max_eq_right (le_of_lt hrest)
          refine ⟨k + 1, ck, by simpa using hget, ?_, ?_, ?_⟩
          · rw [hscan]
            congr 1
            push_cast
            ring
          · rw [hmax, hm]; exact hlen
          · intro j cj hj hgj
            rw [hmax, hm]
            cases j with
            | zero =>
              have hce : c = cj := by simpa using hgj
              subst hce
              exact hrest
            | succ j2 =>
              have hgj2 : rest.get? j2 = some cj := by simpa using hgj
              exact hpre j2 cj (by omega) hgj2
      · push_neg at hc
        have hlt2 : llen < maxChainLen rest := by omega
        have hm : max c.length (maxChainLen rest) = maxChainLen rest := by omega
        rw [scanLongest, if_neg (by omega)]
        obtain ⟨k, ck, hget, hscan, hlen, hpre⟩ := (ih (i + 1) lid llen).2 hlt2
        refine ⟨k + 1, ck, by simpa using hget, ?_, ?_, ?_⟩
        · rw [hscan]
          congr 1
          push_cast
          ring
        · rw [hmax, hm]; exact hlen
        · intro j cj hj hgj
          rw [hmax, hm]
          cases j with
          | zero =>
            have hce : c = cj := by simpa using hgj
            subst hce
            omega
          | succ j2 =>
            have hgj2 : rest.get? j2 = some cj := by simpa using hgj
            exact hpre j2 cj (by omega) hgj2

/-- C5 (amended): LongestChain returns a chain of maximal length and, among
chains of that same maximal length, the one listed first in the ChainList;
the tree enumeration behind the ChainList orders sibling branches by sorted
block id (findChildren sorts), independent of insertion order, so the winner
among equals is the first listed, not the first seen. -/
theorem longestChain_first_listed_maximal (l : ChainList)
    (h : ∃ c ∈ l.Chains, c ≠ []) :
    ∃ c k, l.LongestChain = some c
      ∧ l.Chains.get? k = some c
      ∧ (∀ c' ∈ l.Chains, c'.length ≤ c.length)
      ∧ ∀ j cj, j < k → l.Chains.get? j = some cj → cj.length < c.length := by
  obtain ⟨c0, hc0, hne⟩ := h
  have hpos : 0 < maxChainLen l.Chains :=
    lt_of_lt_of_le (List.length_pos.mpr hne) (le_maxChainLen l.Chains c0 hc0)
  obtain ⟨k, ck, hget, hscan, hlen, hpre⟩ := (scanLongest_spec l.Chains 0 (-1) 0).2 hpos
  have hne2 : 0 < l.Chains.length := List.length_pos.mpr (List.ne_nil_of_mem hc0)
  refine ⟨ck, k, ?_, hget, ?_, ?_⟩
  · unfold ChainList.LongestChain
    rw [hscan, if_pos hne2]
    have h0 : ¬(((0 : Int) + (k : Int), ck.length).1 < 0) := by
      dsimp only
      omega
    rw [if_neg h0]
    have h1 : (((0 : Int) + (k : Int), ck.length)).1.toNat = k := by
      dsimp only
      omega
    rw [h1]
    exact hget
  · intro c' hc'
    rw [hlen]
    exact le_maxChainLen l.Chains c' hc'
  · intro j cj hj hgj
    rw [hlen]
    exact hpre j cj hj hgj

theorem longestChain_first_listed_maximal_witness :
    ∃ c k, (ChainList.mk [["a", "b"], ["c"]]).LongestChain = some c
      ∧ (ChainList.mk [["a", "b"], ["c"]]).Chains.get? k = some c
      ∧ (∀ c' ∈ (ChainList.mk [["a", "b"], ["c"]]).Chains, c'.length ≤ c.length)
      ∧ ∀ j cj, j < k → (ChainList.mk [["a", "b"], ["c"]]).Chains.get? j = some cj →
          cj.length < c.length :=
  longestChain_first_listed_maximal ⟨[["a", "b"], ["c"]]⟩ ⟨["a", "b"], by decide, by decide⟩

/-- C6: a hub sub-stream request that cannot be satisfied yields no source:
SourceFromFinalBlock returns none when no block of the hub chain carries the
requested number, and when the block at that height has a different id; and
SourceFromCursor returns none when the cursor head is ahead of the hub head. -/
theorem hubSource_unsatisfiable_none (h : HubState) (ref : BlockRef) (c : Cursor) :
    ((∀ b ∈ hubSegment h, b.num ≠ ref.num) → sourceFromFinalBlock h ref = none)
    ∧ ((∀ b ∈ hubSegment h, b.num = ref.num → b.id ≠ ref.id) →
        sourceFromFinalBlock h ref = none)
    ∧ (h.head.num < c.headBlock.num → sourceFromCursor h c = none) := by
  refine ⟨?_, ?_, ?_⟩
  · intro hno
    unfold sourceFromFinalBlock
    cases hf : (hubSegment h).find? (fun b => decide (b.num = ref.num)) with
    | none => rfl
    | some b =>
      exfalso
      have hmem := List.mem_of_find?_eq_some hf
      have hp := List.find?_some hf
      exact hno b hmem (by simpa using hp)
  · intro hwrong
    unfold sourceFromFinalBlock
    cases hf : (hubSegment h).find? (fun b => decide (b.num = ref.num)) with
    | none => rfl
    | some b =>
      have hmem := List.mem_of_find?_eq_some hf
      have hnum : b.num = ref.num := by simpa using List.find?_some hf
      simp only [hf]
      rw [if_neg (hwrong b hmem hnum)]
  · intro hfut
    unfold sourceFromCursor
    rw [if_pos hfut]

theorem hubSource_unsatisfiable_none_witness :
    sourceFromFinalBlock ⟨[], ⟨"", 0⟩, ⟨"", 0⟩⟩ ⟨"00000005", 5⟩ = none
    ∧ sourceFromCursor ⟨[], ⟨"", 0⟩, ⟨"", 0⟩⟩
        ⟨StepKind.snew, ⟨"00000005", 5⟩, ⟨"00000005", 5⟩, ⟨"00000003", 3⟩⟩ = none :=
  ⟨(hubSource_unsatisfiable_none ⟨[], ⟨"", 0⟩, ⟨"", 0⟩⟩ ⟨"00000005", 5⟩
      ⟨StepKind.snew, ⟨"00000005", 5⟩, ⟨"00000005", 5⟩, ⟨"00000003", 3⟩⟩).1 (by decide),
   (hubSource_unsatisfiable_none ⟨[], ⟨"", 0⟩, ⟨"", 0⟩⟩ ⟨"00000005", 5⟩
      ⟨StepKind.snew, ⟨"00000005", 5⟩, ⟨"00000005", 5⟩, ⟨"00000003", 3⟩⟩).2.2 (by decide)⟩

/-- C7: with a stop block S > 0 configured, the wrapped handler returns the
ErrStopBlockReached sentinel for every block numbered strictly above S without
forwarding it to the inner handler; for the block numbered exactly S it
forwards the block first, and when the inner handler succeeds it then returns
the sentinel. -/
theorem wrappedHandler_stopBlock (stopBlockNum : Nat) (hs : 0 < stopBlockNum)
    (inner : FhBlock → HandlerOutcome) (b : FhBlock) :
    (stopBlockNum < b.number →
      wrappedHandler stopBlockNum inner b = ([], WrappedOutcome.stopBlockReached))
    ∧ (b.number = stopBlockNum →
      (wrappedHandler stopBlockNum inner b).1 = [b]
      ∧ (inner b = HandlerOutcome.ok →
          (wrappedHandler stopBlockNum inner b).2 = WrappedOutcome.stopBlockReached)) := by
  constructor
  · intro hgt
    unfold wrappedHandler
    rw [if_pos hs, if_pos hgt]
  · intro heq
    have hngt : ¬stopBlockNum < b.number := by omega
    constructor
    · unfold wrappedHandler
      rw [if_pos hs, if_neg hngt]
      cases hi : inner b with
      | fail c => rfl
      | ok => simp only [hi]; rw [if_pos heq]
    · intro hok
      unfold wrappedHandler
      rw [if_pos hs, if_neg hngt, hok]
      simp only
      rw [if_pos heq]

theorem wrappedHandler_stopBlock_witness :
    wrappedHandler 3 (fun _ => HandlerOutcome.ok) ⟨"b4", 4⟩
        = ([], WrappedOutcome.stopBlockReached)
    ∧ (wrappedHandler 3 (fun _ => HandlerOutcome.ok) ⟨"b3", 3⟩).1 = [⟨"b3", 3⟩]
    ∧ (wrappedHandler 3 (fun _ => HandlerOutcome.ok) ⟨"b3", 3⟩).2
        = WrappedOutcome.stopBlockReached :=
  ⟨(wrappedHandler_stopBlock 3 (by decide) (fun _ => HandlerOutcome.ok) ⟨"b4", 4⟩).1 (by decide),
   ((wrappedHandler_stopBlock 3 (by decide) (fun _ => HandlerOutcome.ok) ⟨"b3", 3⟩).2 rfl).1,
   ((wrappedHandler_stopBlock 3 (by decide) (fun _ => HandlerOutcome.ok) ⟨"b3", 3⟩).2 rfl).2 rfl⟩

/-- C8: Firehose stream construction fails with the invalid-argument error in
exactly two cases — a negative start block requested while the HEAD getter is
undefined (no HEAD tracker), or the resolved absolute start block (clamped to
the first streamable block) exceeding a non-zero stop block; every other
outcome is a source or a non-invalid-argument error, so no source is created
in either case. -/
theorem createSource_invalidArg_iff (f : FirehoseConfig) :
    createSource f = FirehoseResult.errInvalidArg ↔
      (f.startBlockNum < 0 ∧ f.headTracker = TrackerHeadOutcome.getterUndefined)
      ∨ (∃ n, resolveNegativeStartBlockNum f.startBlockNum f.headTracker = Except.ok n
          ∧ 0 < f.stopBlockNum
          ∧ f.stopBlockNum < max n f.firstStreamableBlock) := by
  unfold createSource
  cases hres : resolveNegativeStartBlockNum f.startBlockNum f.headTracker with
  | error e =>
    have he : f.startBlockNum < 0
        ∧ ((f.headTracker = TrackerHeadOutcome.getterUndefined
              ∧ e = FirehoseResult.errInvalidArg)
            ∨ (f.headTracker = TrackerHeadOutcome.failed
              ∧ e = FirehoseResult.errOther)) := by
      unfold resolveNegativeStartBlockNum at hres
      by_cases hs : f.startBlockNum < 0
      · rw [if_pos hs] at hres
        cases htr : f.headTracker <;> rw [htr] at hres <;> simp_all
      · rw [if_neg hs] at hres
        simp at hres
    obtain ⟨hs, hcase⟩ := he
    simp only [hres]
    constructor
    · intro hlhs
      rcases hcase with ⟨htr, rfl⟩ | ⟨htr, rfl⟩
      · exact Or.inl ⟨hs, htr⟩
      · simp at hlhs
    · intro _
      rcases hcase with ⟨htr, rfl⟩ | ⟨htr, rfl⟩
      · rfl
      · exfalso
        rcases ‹_ ∨ _› with ⟨_, htr2⟩ | ⟨n, hok, _⟩
        · rw [htr] at htr2; exact absurd htr2 (by simp)
        · exact absurd hok (by simp)
  | ok n =>
    simp only [hres]
    have habs : (if n < f.firstStreamableBlock then f.firstStreamableBlock else n)
        = max n f.firstStreamableBlock := by
      split <;> omega
    by_cases hstop : 0 < f.stopBlockNum ∧ f.stopBlockNum
        < (if n < f.firstStreamableBlock then f.firstStreamableBlock else n)
    · rw [if_pos hstop]
      simp only [true_iff]
      exact Or.inr ⟨n, rfl, hstop.1, by rw [← habs]; exact hstop.2⟩
    · rw [if_neg hstop]
      constructor
      · intro hlhs
        exfalso
        revert hlhs
        split
        · simp
        · split
          · simp
          · split
            · cases f.resolveStartOutcome <;> simp
            · simp
      · intro hrhs
        exfalso
        rcases hrhs with ⟨hs, htr⟩ | ⟨m, hok, h1, h2⟩
        · unfold resolveNegativeStartBlockNum at hres
          rw [if_pos hs, htr] at hres
          exact absurd hres (by simp)
        · have hnm : n = m := by simpa using hok
          subst hnm
          rw [← habs] at h2
          exact hstop ⟨h1, h2⟩

/-- C9: a cursor whose head equals its block serialises as
c1:step:block_num:block_id:lib_num:lib_id with the step encoded numerically
(new=1, undo=2, redo=4, irreversible=16, stalled=32): the New cursor of block
1 prints as c1:1:1:00000001a:1:00000001a and its Irreversible cursor as
c1:16:1:00000001a:1:00000001a. -/
theorem cursor_wire_format :
    cursorToText ⟨StepKind.snew, ⟨"00000001a", 1⟩, ⟨"00000001a", 1⟩, ⟨"00000001a", 1⟩⟩
        = "c1:1:1:00000001a:1:00000001a"
    ∧ cursorToText ⟨StepKind.sirr, ⟨"00000001a", 1⟩, ⟨"00000001a", 1⟩, ⟨"00000001a", 1⟩⟩
        = "c1:16:1:00000001a:1:00000001a"
    ∧ stepWireCode StepKind.snew = 1
    ∧ stepWireCode StepKind.sundo = 2
    ∧ stepWireCode StepKind.sredo = 4
    ∧ stepWireCode StepKind.sirr = 16
    ∧ stepWireCode StepKind.sstalled = 32 := by
  refine ⟨?_, ?_, rfl, rfl, rfl, rfl, rfl⟩ <;> decide

/-- C10: Block.PreviousRef is total — it equals the claim-worded function
(BlockRefEmpty on nil receiver, zero Number or empty PreviousId, otherwise the
reference (PreviousId, Number - 1)), and on every other block it reports the
parent at exactly one height below the block, whatever the real parent
height. -/
theorem blockPreviousRef_total :
    (∀ ob : Option BsBlock, blockPreviousRef ob = previousRefClaim ob)
    ∧ ∀ b : BsBlock, b.number ≠ 0 → b.previousId ≠ "" →
        (blockPreviousRef (some b)).id = b.previousId
        ∧ (blockPreviousRef (some b)).num + 1 = b.number := by
  constructor
  · intro ob
    cases ob with
    | none => rfl
    | some b =>
      unfold blockPreviousRef previousRefClaim
      by_cases h1 : b.number = 0
      · simp [h1]
      · by_cases h2 : b.previousId = ""
        · simp [h1, h2]
        · simp [h1, h2]
  · intro b h1 h2
    simp only [blockPreviousRef]
    rw [if_neg (by tauto)]
    refine ⟨rfl, ?_⟩
    dsimp only
    omega

theorem blockPreviousRef_total_witness :
    blockPreviousRef (some ⟨"b7", 7, "b5", 0⟩) = previousRefClaim (some ⟨"b7", 7, "b5", 0⟩)
    ∧ (blockPreviousRef (some ⟨"b7", 7, "b5", 0⟩)).id = "b5"
    ∧ (blockPreviousRef (some ⟨"b7", 7, "b5", 0⟩)).num + 1 = 7 :=
  ⟨blockPreviousRef_total.1 _,
   (blockPreviousRef_total.2 ⟨"b7", 7, "b5", 0⟩ (by decide) (by decide)).1,
   (blockPreviousRef_total.2 ⟨"b7", 7, "b5", 0⟩ (by decide) (by decide)).2⟩
